import Mathlib

/-!
# Company registry scraper (`scrape.go`)

A shallow embedding of the single-page scraper.  The program registers three
callbacks on a colly collector (request start, element match for the selector
`.govspeak .govuk-link`, scrape complete), visits one fixed URL and prints the
collected `Registry` records as JSON.

Go values are embedded as follows.
* A Go `string` is its sequence of bytes, a `List Nat` whose members are
  meant to be below 256.
* A Go slice is `Option (List α)`; `none` is the nil slice.
* The closure variable `registries` and standard output form an explicit
  `World` that every callback transforms.
* The network is an input: the outcome of the one HTTP fetch, an error text
  or the HTML response, is handed to `main`.
* Library code the program calls (colly, goquery, cascadia, `encoding/json`,
  `unicode/utf8`, `fmt`) is embedded as far as the program uses it.
-/

namespace Scrape

/-! ## Strings, slices and printing -/

/-- Go `string`: a sequence of bytes. -/
abbrev GoString := List Nat

/-- Bytes of a string literal made of ASCII characters only. -/
def ascii (s : String) : GoString := s.toList.map Char.toNat

/-- Go slice: `none` is the nil slice, `some xs` a non-nil slice. -/
abbrev Slice (α : Type) := Option (List α)

/-- Go builtin `append(s, x)` for one element. -/
def append {α : Type} : Slice α → α → Slice α
  | none, x => some [x]
  | some xs, x => some (xs ++ [x])

/-- Elements of a slice, the nil slice having none. -/
def Slice.elems {α : Type} : Slice α → List α
  | none => []
  | some xs => xs

/-- Registry will store the Country registration URL items. -/
structure Registry where
  Country : GoString
  URL : GoString
deriving DecidableEq

/-- The state the callbacks act on: the captured variable `registries` and
the bytes written to standard output so far. -/
structure World where
  registries : Slice Registry
  stdout : GoString
deriving DecidableEq

/-- Operands of `fmt.Println` joined by single spaces. -/
def joinArgs : List GoString → GoString
  | [] => []
  | [a] => a
  | a :: b :: rest => a ++ 0x20 :: joinArgs (b :: rest)

/-- Go `fmt.Println` on already formatted operands: spaces between operands
and a newline appended. -/
def Println (args : List GoString) (w : World) : World :=
  { w with stdout := w.stdout ++ joinArgs args ++ [0x0A] }

/-! ## HTML nodes and selector matching (`x/net/html`, cascadia, goquery) -/

/-- Kind of a parse-tree node (`html.NodeType`). -/
inductive NodeType where
  | ErrorNode
  | TextNode
  | DocumentNode
  | ElementNode
  | CommentNode
  | DoctypeNode
deriving DecidableEq

/-- An attribute of an element (`html.Attribute`). -/
structure Attribute where
  Namespace : GoString
  Key : GoString
  Val : GoString
deriving DecidableEq

/-- A node of the parse tree (`html.Node`) with its children in order. -/
inductive Node where
  | mk (Typ : NodeType) (Data : GoString) (Attr : List Attribute) (children : List Node)

/-- Kind of the node. -/
def Node.Typ : Node → NodeType
  | .mk t _ _ _ => t

/-- Tag name of an element, content of a text node. -/
def Node.Data : Node → GoString
  | .mk _ d _ _ => d

/-- Attributes of the node. -/
def Node.Attr : Node → List Attribute
  | .mk _ _ a _ => a

/-- Children of the node, first to last. -/
def Node.children : Node → List Node
  | .mk _ _ _ cs => cs

mutual
/-- Text of a node as goquery's `Text()` builds it: the data of every text
node below (or at) `n`, in document order, nothing trimmed. -/
def nodeText : Node → GoString
  | .mk t d _ cs => (if t = NodeType.TextNode then d else []) ++ forestText cs
/-- Concatenated text of a list of sibling nodes. -/
def forestText : List Node → GoString
  | [] => []
  | n :: ns => nodeText n ++ forestText ns
end

/-- Whitespace characters that separate class names (cascadia: space, tab,
carriage return, newline, form feed). -/
def isClassSep (b : Nat) : Bool :=
  b = 0x20 || b = 0x09 || b = 0x0D || b = 0x0A || b = 0x0C

/-- Auxiliary loop of `includes`: `cur` is the token read so far. -/
def includesFrom (val : GoString) : GoString → GoString → Bool
  | cur, [] => cur = val && cur ≠ []
  | cur, b :: s =>
    if isClassSep b then (cur = val) || includesFrom val [] s
    else includesFrom val (cur ++ [b]) s

/-- Whether the whitespace separated list `s` includes the token `val`
(cascadia's test behind `.class` and `[attr~=val]`). -/
def includes (val : GoString) (s : GoString) : Bool :=
  includesFrom val [] s

/-- A compiled CSS selector (cascadia `Selector`).  Go nodes carry a parent
pointer; here the chain of ancestors, nearest first, is passed along with the
node. -/
abbrev Selector := List Node → Node → Bool

/-- Selector `.cls`: an element one of whose `class` attributes includes `cls`. -/
def classSelector (cls : GoString) : Selector := fun _ n =>
  n.Typ = NodeType.ElementNode &&
    n.Attr.any (fun a => a.Key = ascii "class" && includes cls a.Val)

/-- Walk up the parent chain, `for p := n.Parent; p != nil; p = p.Parent`,
until some ancestor satisfies `a`. -/
def anyAncestor (a : Selector) : List Node → Bool
  | [] => false
  | p :: ps => a ps p || anyAncestor a ps

/-- Descendant combinator `a d` (cascadia `descendantSelector`): the node
satisfies `d` and some proper ancestor satisfies `a`. -/
def descendantSelector (a d : Selector) : Selector := fun anc n =>
  d anc n && anyAncestor a anc

/-- The selector passed to `OnHTML`, `.govspeak .govuk-link`, compiled. -/
def govukLinkSelector : Selector :=
  descendantSelector (classSelector (ascii "govspeak")) (classSelector (ascii "govuk-link"))

mutual
/-- Every node at or below `n` that satisfies `s`, the node before its
descendants and children left to right (cascadia `MatchAll`). -/
def matchAll (s : Selector) : List Node → Node → List Node
  | anc, .mk t d as cs =>
    (if s anc (.mk t d as cs) then [.mk t d as cs] else []) ++
      matchAllForest s (.mk t d as cs :: anc) cs
/-- The matches below each of a node's children `cs`, `anc` being the chain
that starts with that node. -/
def matchAllForest (s : Selector) : List Node → List Node → List Node
  | _, [] => []
  | anc, n :: ns => matchAll s anc n ++ matchAllForest s anc ns
end

/-- Matches among the element children of `root` (goquery
`findWithMatcher` goes down one level before matching). -/
def findChildren (s : Selector) (root : Node) : List Node → List Node
  | [] => []
  | c :: cs =>
    (if c.Typ = NodeType.ElementNode then matchAll s [root] c else []) ++
      findChildren s root cs

/-- Goquery `doc.Find(selector)`: the matching descendants of the document
root in document order. -/
def Find (s : Selector) (root : Node) : List Node :=
  findChildren s root root.children

/-! ## The collector (colly) -/

/-- The part of `colly.Request` the program reads. -/
structure Request where
  URL : GoString

/-- The response of a completed fetch of an HTML page; `doc` is the parse
tree of its body. -/
structure Response where
  doc : Node

/-- The part of `colly.HTMLElement` the program reads. -/
structure HTMLElement where
  Name : GoString
  Text : GoString
  attributes : List Attribute

/-- Colly `NewHTMLElementFromSelectionNode`: `Text` is the goquery text of
the node, `attributes` the node's attribute list. -/
def NewHTMLElementFromSelectionNode (n : Node) : HTMLElement :=
  { Name := n.Data, Text := nodeText n, attributes := n.Attr }

/-- Colly `HTMLElement.Attr`: the value of the first attribute whose key is
`k`, the empty string when there is none. -/
def HTMLElement.Attr (h : HTMLElement) (k : GoString) : GoString :=
  match h.attributes.find? (fun a => a.Key = k) with
  | some a => a.Val
  | none => []

/-- Callbacks registered on a collector. -/
structure Collector where
  requestCallbacks : List (Request → World → World)
  htmlCallbacks : List (Selector × (HTMLElement → World → World))
  scrapedCallbacks : List (Response → World → World)

/-- Colly `NewCollector()`: no callback registered. -/
def NewCollector : Collector :=
  { requestCallbacks := [], htmlCallbacks := [], scrapedCallbacks := [] }

/-- Register a request callback. -/
def Collector.OnRequest (c : Collector) (f : Request → World → World) : Collector :=
  { c with requestCallbacks := c.requestCallbacks ++ [f] }

/-- Register an element callback for a selector. -/
def Collector.OnHTML (c : Collector) (s : Selector) (f : HTMLElement → World → World) :
    Collector :=
  { c with htmlCallbacks := c.htmlCallbacks ++ [(s, f)] }

/-- Register a completion callback. -/
def Collector.OnScraped (c : Collector) (f : Response → World → World) : Collector :=
  { c with scrapedCallbacks := c.scrapedCallbacks ++ [f] }

/-- Colly `handleOnHTML`: for every registered selector, call its function
on each match in document order. -/
def Collector.handleOnHTML (c : Collector) (resp : Response) (w : World) : World :=
  c.htmlCallbacks.foldl
    (fun w cc => (Find cc.1 resp.doc).foldl
      (fun w n => cc.2 (NewHTMLElementFromSelectionNode n) w) w) w

/-- Colly `Visit` for one URL, the outcome of the HTTP fetch being `env`.
The request callbacks run first.  A failed fetch returns its error at once:
no element callback and no completion callback runs, and the collector itself
writes nothing.  Otherwise the element callbacks run, then the completion
callbacks. -/
def Collector.Visit (c : Collector) (URL : GoString) (env : Except GoString Response)
    (w : World) : World × Option GoString :=
  let w := c.requestCallbacks.foldl (fun w f => f { URL := URL } w) w
  match env with
  | .error err => (w, some err)
  | .ok resp =>
    let w := c.handleOnHTML resp w
    let w := c.scrapedCallbacks.foldl (fun w f => f resp w) w
    (w, none)

/-! ## UTF-8 (`unicode/utf8`) -/

/-- The replacement character U+FFFD (`utf8.RuneError`). -/
def RuneError : Nat := 0xFFFD

/-- Lower bound of the second byte after lead byte `s0` (`acceptRanges`):
0xA0 after 0xE0, 0x90 after 0xF0, otherwise 0x80. -/
def acceptLo (s0 : Nat) : Nat :=
  if s0 = 0xE0 then 0xA0 else if s0 = 0xF0 then 0x90 else 0x80

/-- Upper bound of the second byte after lead byte `s0` (`acceptRanges`):
0x9F after 0xED, 0x8F after 0xF4, otherwise 0xBF. -/
def acceptHi (s0 : Nat) : Nat :=
  if s0 = 0xED then 0x9F else if s0 = 0xF4 then 0x8F else 0xBF

/-- Go `utf8.DecodeRuneInString`: the first rune of `s` and its width in
bytes; `(RuneError, 1)` on an invalid or truncated encoding, `(RuneError, 0)`
on the empty string.  The lead-byte table `first` is written as comparisons
(0xC2 to 0xDF start two bytes, 0xE0 to 0xEF three, 0xF0 to 0xF4 four, every
other byte from 0x80 on is invalid), the masks and shifts as `%` and `*`. -/
def DecodeRuneInString : GoString → Nat × Nat
  | [] => (RuneError, 0)
  | s0 :: t =>
    if s0 < 0x80 then (s0, 1)
    else if s0 < 0xC2 ∨ 0xF4 < s0 then (RuneError, 1)
    else
      match t with
      | [] => (RuneError, 1)
      | s1 :: t1 =>
        if s1 < acceptLo s0 ∨ acceptHi s0 < s1 then (RuneError, 1)
        else if s0 < 0xE0 then ((s0 % 32) * 64 + s1 % 64, 2)
        else
          match t1 with
          | [] => (RuneError, 1)
          | s2 :: t2 =>
            if s2 < 0x80 ∨ 0xBF < s2 then (RuneError, 1)
            else if s0 < 0xF0 then ((s0 % 16) * 4096 + (s1 % 64) * 64 + s2 % 64, 3)
            else
              match t2 with
              | [] => (RuneError, 1)
              | s3 :: _ =>
                if s3 < 0x80 ∨ 0xBF < s3 then (RuneError, 1)
                else ((s0 % 8) * 262144 + (s1 % 64) * 4096 + (s2 % 64) * 64 + s3 % 64, 4)

/-- Go `utf8.AppendRune` (`EncodeRune`): the UTF-8 encoding of a rune;
surrogates and values above U+10FFFF are encoded as U+FFFD. -/
def AppendRune (r : Nat) : GoString :=
  if r < 0x80 then [r]
  else if r < 0x800 then [0xC0 + r / 64, 0x80 + r % 64]
  else if (0xD800 ≤ r ∧ r < 0xE000) ∨ 0x10FFFF < r then [0xEF, 0xBF, 0xBD]
  else if r < 0x10000 then [0xE0 + r / 4096, 0x80 + r / 64 % 64, 0x80 + r % 64]
  else [0xF0 + r / 262144, 0x80 + r / 4096 % 64, 0x80 + r / 64 % 64, 0x80 + r % 64]

/-! ## JSON encoding (`encoding/json`) -/

/-- The table `htmlSafeSet`: ASCII bytes written unescaped inside a JSON
string when HTML escaping is on, which is what `json.Marshal` uses. -/
def htmlSafeSet (b : Nat) : Bool :=
  0x20 ≤ b && b < 0x80 && b ≠ 0x22 && b ≠ 0x26 && b ≠ 0x3C && b ≠ 0x3E && b ≠ 0x5C

/-- The digit table `hex`, "0123456789abcdef". -/
def hex (n : Nat) : Nat :=
  if n < 10 then 0x30 + n else 0x61 + (n - 10)

/-- Escape written for an ASCII byte outside `htmlSafeSet`: a backslash
before `\` and `"`; `\n`, `\r`, `\t`; `\u00XX` for the rest (other control
characters, `<`, `>`, `&`).  Go releases from 1.22 on write `\b` and `\f` for
0x08 and 0x0C where older ones write `\u0008` and `\u000c`; both spellings
stand for the same byte. -/
def escapeByte (b : Nat) : GoString :=
  if b = 0x5C ∨ b = 0x22 then [0x5C, b]
  else if b = 0x0A then [0x5C, 0x6E]
  else if b = 0x0D then [0x5C, 0x72]
  else if b = 0x09 then [0x5C, 0x74]
  else [0x5C, 0x75, 0x30, 0x30, hex (b / 16), hex (b % 16)]

/-- The loop of the encoder's `string` method from position `i` on, `s`
being `src[i:]`; `fuel` bounds the number of iterations.  The Go loop copies
runs of unescaped bytes lazily (`src[start:i]`); here they are written as
they are passed.  A byte that starts no valid encoding is written as the
escape `\ufffd`; a reader takes that escape and the raw encoding of U+FFFD
for the same three bytes. -/
def stringLoop : Nat → GoString → GoString
  | 0, _ => []
  | _, [] => []
  | fuel + 1, b :: rest =>
    if b < 0x80 then
      if htmlSafeSet b then b :: stringLoop fuel rest
      else escapeByte b ++ stringLoop fuel rest
    else
      let cs := DecodeRuneInString (b :: rest)
      if cs.1 = RuneError ∧ cs.2 = 1 then
        [0x5C, 0x75, 0x66, 0x66, 0x66, 0x64] ++ stringLoop fuel rest
      else if cs.1 = 0x2028 ∨ cs.1 = 0x2029 then
        [0x5C, 0x75, 0x32, 0x30, 0x32, hex (cs.1 % 16)] ++
          stringLoop fuel (rest.drop (cs.2 - 1))
      else
        (b :: rest).take cs.2 ++ stringLoop fuel (rest.drop (cs.2 - 1))

/-- The JSON string literal `json.Marshal` writes for a Go string: quoted,
escaped, and coerced to valid UTF-8. -/
def encodeString (s : GoString) : GoString :=
  0x22 :: stringLoop s.length s ++ [0x22]

/-- Struct encoder on the list of (name, value) fields: the fields as
`"name":value`, separated by commas.  Names and values are written by the
string encoder. -/
def encodeFields : List (GoString × GoString) → GoString
  | [] => []
  | [f] => encodeString f.1 ++ 0x3A :: encodeString f.2
  | f :: g :: fs =>
    encodeString f.1 ++ 0x3A :: encodeString f.2 ++ 0x2C :: encodeFields (g :: fs)

/-- The exported fields of `Registry` under their JSON names, in declaration
order. -/
def Registry.fields (r : Registry) : List (GoString × GoString) :=
  [(ascii "Country", r.Country), (ascii "URL", r.URL)]

/-- JSON object written for one `Registry`. -/
def encodeRegistry (r : Registry) : GoString :=
  0x7B :: encodeFields r.fields ++ [0x7D]

/-- Slice encoder body: the elements separated by commas. -/
def encodeElems : List Registry → GoString
  | [] => []
  | [r] => encodeRegistry r
  | r :: q :: rs => encodeRegistry r ++ 0x2C :: encodeElems (q :: rs)

/-- Go `json.Marshal` on a `[]Registry`: `null` for the nil slice, otherwise
`[`, the elements, `]`.  The error result is never used for this type. -/
def Marshal : Slice Registry → Except GoString GoString
  | none => .ok (ascii "null")
  | some rs => .ok (0x5B :: encodeElems rs ++ [0x5D])

/-! ## The program -/

/-- The page the program visits. -/
def targetURL : GoString :=
  ascii "https://www.gov.uk/government/publications/overseas-registries/overseas-registries"

/-- Body of the `OnRequest` callback. -/
def onRequest (r : Request) (w : World) : World :=
  Println [ascii "Visiting", r.URL] w

/-- Body of the `OnHTML` callback: build a record from the element's text
and its `href` attribute and append it to `registries`. -/
def onHTML (e : HTMLElement) (w : World) : World :=
  let reg : Registry := { Country := [], URL := [] }
  let reg := { reg with Country := e.Text }
  let reg := { reg with URL := e.Attr (ascii "href") }
  { w with registries := append w.registries reg }

/-- The two branches of the `OnScraped` callback on the result of
`json.Marshal`: print the error, or print the data line. -/
def printResult (res : Except GoString GoString) (w : World) : World :=
  match res with
  | .error err => Println [err] w
  | .ok data => Println [ascii "Finished. Here is your data:", data] w

/-- Body of the `OnScraped` callback. -/
def onScraped (_r : Response) (w : World) : World :=
  printResult (Marshal w.registries) w

/-- What a run of the process leaves behind. -/
structure Process where
  stdout : GoString
  stderr : GoString
  exitCode : Nat
  registries : Slice Registry
deriving DecidableEq

/-- The collector of `main` with its three callbacks registered. -/
def collector : Collector :=
  let c := NewCollector
  let c := c.OnRequest onRequest
  let c := c.OnHTML govukLinkSelector onHTML
  let c := c.OnScraped onScraped
  c

/-- The program `main`, `env` being the outcome of the HTTP fetch.
`registries` starts as the empty non-nil slice `[]Registry{}`.  The error
returned by `Visit` is dropped; nothing is written to standard error and
`main` returns normally, so the exit status is 0 on every path. -/
def main (env : Except GoString Response) : Process :=
  let w : World := { registries := some [], stdout := [] }
  let res := collector.Visit targetURL env w
  { stdout := res.1.stdout, stderr := [], exitCode := 0, registries := res.1.registries }

/-! ## Reading the output back

The program never decodes JSON.  The definitions of this section state what
the printed text means: a decoder for JSON arrays of objects with string
members (RFC 8259, without insignificant whitespace, which `json.Marshal`
does not write), and the coercion to valid UTF-8 that the encoder applies. -/

/-- Value of a hexadecimal digit. -/
def hexVal (c : Nat) : Option Nat :=
  if 0x30 ≤ c ∧ c ≤ 0x39 then some (c - 0x30)
  else if 0x61 ≤ c ∧ c ≤ 0x66 then some (c - 0x61 + 10)
  else if 0x41 ≤ c ∧ c ≤ 0x46 then some (c - 0x41 + 10)
  else none

/-- The code unit written by four hexadecimal digits. -/
def getu4 (a b c d : Nat) : Option Nat :=
  match hexVal a, hexVal b, hexVal c, hexVal d with
  | some x, some y, some z, some w => some (x * 4096 + y * 256 + z * 16 + w)
  | _, _, _, _ => none

/-- The byte a two-character escape stands for. -/
def unescape (e : Nat) : Option Nat :=
  if e = 0x22 ∨ e = 0x5C ∨ e = 0x2F then some e
  else if e = 0x62 then some 0x08
  else if e = 0x66 then some 0x0C
  else if e = 0x6E then some 0x0A
  else if e = 0x72 then some 0x0D
  else if e = 0x74 then some 0x09
  else none

/-- Put decoded bytes in front of the string decoded from the rest. -/
def consBytes (bs : GoString) (r : Option (GoString × GoString)) :
    Option (GoString × GoString) :=
  r.map (fun p => (bs ++ p.1, p.2))

/-- A low surrogate escape `\uDC00` to `\uDFFF` at the head of the input:
its code unit and the input after it. -/
def lowSurrogate : GoString → Option (Nat × GoString)
  | b1 :: u1 :: l1 :: l2 :: l3 :: l4 :: s3 =>
    match getu4 l1 l2 l3 l4 with
    | some r1 =>
      if b1 = 0x5C ∧ u1 = 0x75 ∧ 0xDC00 ≤ r1 ∧ r1 < 0xE000 then some (r1, s3) else none
    | none => none
  | _ => none

/-- One item of the inside of a JSON string literal.  `none`: malformed
input; `some (none, rest)`: the closing quote; `some (some bs, rest)`: an item
standing for the bytes `bs`.  A `\u` escape stands for the UTF-8 encoding of
its code point, a surrogate pair for that of the character it denotes, a lone
surrogate for U+FFFD; unescaped control characters are rejected. -/
def unquoteStep : GoString → Option (Option GoString × GoString)
  | [] => none
  | c :: s =>
    if c = 0x22 then some (none, s)
    else if c = 0x5C then
      match s with
      | [] => none
      | e :: s1 =>
        if e = 0x75 then
          match s1 with
          | h1 :: h2 :: h3 :: h4 :: s2 =>
            match getu4 h1 h2 h3 h4 with
            | none => none
            | some rr =>
              if 0xD800 ≤ rr ∧ rr < 0xDC00 then
                match lowSurrogate s2 with
                | some (r1, s3) =>
                  some (some (AppendRune (0x10000 + (rr - 0xD800) * 1024 + (r1 - 0xDC00))), s3)
                | none => some (some (AppendRune rr), s2)
              else some (some (AppendRune rr), s2)
          | _ => none
        else
          match unescape e with
          | none => none
          | some b => some (some [b], s1)
    else if c < 0x20 then none
    else some (some [c], s)

/-- Decode the inside of a JSON string literal up to its closing quote, in
at most `fuel` items; returns the decoded bytes and the input after the
quote. -/
def unquoteBody : Nat → GoString → Option (GoString × GoString)
  | 0, _ => none
  | fuel + 1, s =>
    match unquoteStep s with
    | none => none
    | some (none, rest) => some ([], rest)
    | some (some bs, rest) => consBytes bs (unquoteBody fuel rest)

/-- Decode a JSON string literal at the head of the input. -/
def parseString : GoString → Option (GoString × GoString)
  | [] => none
  | c :: s => if c = 0x22 then unquoteBody s.length s else none

/-- Decode the members `"key":"value"` of an object up to its closing brace. -/
def parseMembers : Nat → GoString → Option (List (GoString × GoString) × GoString)
  | 0, _ => none
  | fuel + 1, s =>
    match parseString s with
    | none => none
    | some (k, s1) =>
      match s1 with
      | [] => none
      | c :: s2 =>
        if c = 0x3A then
          match parseString s2 with
          | none => none
          | some (v, s3) =>
            match s3 with
            | [] => none
            | d :: s4 =>
              if d = 0x2C then (parseMembers fuel s4).map (fun p => ((k, v) :: p.1, p.2))
              else if d = 0x7D then some ([(k, v)], s4)
              else none
        else none

/-- Decode a JSON object whose values are strings: its members in order. -/
def parseObject : GoString → Option (List (GoString × GoString) × GoString)
  | [] => none
  | c :: s =>
    if c = 0x7B then
      match s with
      | [] => none
      | d :: s1 => if d = 0x7D then some ([], s1) else parseMembers s.length s
    else none

/-- Decode the elements of an array of objects up to its closing bracket. -/
def parseElems : Nat → GoString →
    Option (List (List (GoString × GoString)) × GoString)
  | 0, _ => none
  | fuel + 1, s =>
    match parseObject s with
    | none => none
    | some (o, s1) =>
      match s1 with
      | [] => none
      | d :: s2 =>
        if d = 0x2C then (parseElems fuel s2).map (fun p => (o :: p.1, p.2))
        else if d = 0x5D then some ([o], s2)
        else none

/-- Decode a complete JSON text that is an array of objects with string
members: the objects in order, each as its list of (name, value) members. -/
def decodeObjects : GoString → Option (List (List (GoString × GoString)))
  | [] => none
  | c :: s =>
    if c = 0x5B then
      match s with
      | [] => none
      | d :: s1 =>
        if d = 0x5D then (if s1 = [] then some [] else none)
        else
          match parseElems s.length s with
          | some (os, []) => some os
          | _ => none
    else none

/-- Fill a `Registry` from the members of a decoded object: a member named
`Country` or `URL` sets that field, later members win, others are ignored. -/
def registryOfMembers (ms : List (GoString × GoString)) : Registry :=
  ms.foldl (fun r kv =>
    if kv.1 = ascii "Country" then { r with Country := kv.2 }
    else if kv.1 = ascii "URL" then { r with URL := kv.2 }
    else r) { Country := [], URL := [] }

/-- Decode a JSON text into a `[]Registry` (what `json.Unmarshal` returns on
the texts `Marshal` writes): `null` is the nil slice. -/
def Unmarshal (data : GoString) : Option (Slice Registry) :=
  if data = ascii "null" then some none
  else (decodeObjects data).map (fun os => some (os.map registryOfMembers))

/-- Loop of `toValidUTF8` with a bound on the number of iterations. -/
def toValidLoop : Nat → GoString → GoString
  | 0, _ => []
  | _, [] => []
  | fuel + 1, b :: rest =>
    if b < 0x80 then b :: toValidLoop fuel rest
    else
      let cs := DecodeRuneInString (b :: rest)
      if cs.1 = RuneError ∧ cs.2 = 1 then [0xEF, 0xBF, 0xBD] ++ toValidLoop fuel rest
      else (b :: rest).take cs.2 ++ toValidLoop fuel (rest.drop (cs.2 - 1))

/-- The string with every byte that does not start a valid UTF-8 encoding
replaced by the encoding of U+FFFD: the coercion `json.Marshal` documents for
string values. -/
def toValidUTF8 (s : GoString) : GoString :=
  toValidLoop s.length s

/-- Loop of `ValidString` with a bound on the number of iterations. -/
def validLoop : Nat → GoString → Bool
  | 0, s => s = []
  | _, [] => true
  | fuel + 1, b :: rest =>
    if b < 0x80 then validLoop fuel rest
    else
      let cs := DecodeRuneInString (b :: rest)
      if cs.1 = RuneError ∧ cs.2 = 1 then false
      else validLoop fuel (rest.drop (cs.2 - 1))

/-- Go `utf8.ValidString`: whether the string consists entirely of valid
UTF-8 encoded runes. -/
def ValidString (s : GoString) : Bool :=
  validLoop s.length s

/-- Go `strings.TrimSpace` restricted to the ASCII white space characters
(tab, newline, vertical tab, form feed, carriage return, space): both ends
trimmed. -/
def isSpace (b : Nat) : Bool :=
  b = 0x09 || b = 0x0A || b = 0x0B || b = 0x0C || b = 0x0D || b = 0x20

/-- Leading and trailing white space removed. -/
def TrimSpace (s : GoString) : GoString :=
  ((s.dropWhile isSpace).reverse.dropWhile isSpace).reverse

/-- The members a JSON reader finds in the object written for a record: the
two names in declaration order, each value coerced to valid UTF-8. -/
def membersOf (r : Registry) : List (GoString × GoString) :=
  [(ascii "Country", toValidUTF8 r.Country), (ascii "URL", toValidUTF8 r.URL)]

/-- A record with both strings coerced to valid UTF-8. -/
def Registry.toValid (r : Registry) : Registry :=
  { Country := toValidUTF8 r.Country, URL := toValidUTF8 r.URL }

mutual
/-- Every node at or below `n`, each paired with the chain of its proper
ancestors (nearest first), in document order. -/
def nodesWithAncestors : List Node → Node → List (List Node × Node)
  | anc, .mk t d as cs => (anc, .mk t d as cs) :: forestWithAncestors (.mk t d as cs :: anc) cs
/-- The nodes at or below each of the siblings `ns`, with their ancestors. -/
def forestWithAncestors : List Node → List Node → List (List Node × Node)
  | _, [] => []
  | anc, n :: ns => nodesWithAncestors anc n ++ forestWithAncestors anc ns
end

/-- Every node strictly below the document root, with its proper ancestors,
in document order. -/
def descendants (root : Node) : List (List Node × Node) :=
  forestWithAncestors [root] root.children

/-- The node is an element carrying class `cls`. -/
def carriesClass (cls : GoString) (n : Node) : Bool :=
  n.Typ = NodeType.ElementNode &&
    n.Attr.any (fun a => a.Key = ascii "class" && includes cls a.Val)

/-- The node carries class `govuk-link` and some proper ancestor carries
class `govspeak`. -/
def qualifies (p : List Node × Node) : Bool :=
  carriesClass (ascii "govuk-link") p.2 && p.1.any (carriesClass (ascii "govspeak"))

/-- The record the element callback builds from a matched node. -/
def recordOf (n : Node) : Registry :=
  { Country := nodeText n, URL := (NewHTMLElementFromSelectionNode n).Attr (ascii "href") }

/-- The line `OnRequest` prints for the page. -/
def visitingLine : GoString :=
  ascii "Visiting https://www.gov.uk/government/publications/overseas-registries/overseas-registries\n"

/-- Whether a run reports the failure `err`: its text appears on standard
output or standard error, or the exit status is not 0. -/
def reportsFailure (err : GoString) (p : Process) : Prop :=
  err <:+: p.stdout ∨ err <:+: p.stderr ∨ p.exitCode ≠ 0

/-! ## Sample pages -/

/-- An element node with the given tag, attributes and children. -/
def elem (tag : String) (attrs : List (String × String)) (cs : List Node) : Node :=
  .mk NodeType.ElementNode (ascii tag)
    (attrs.map (fun kv => { Namespace := [], Key := ascii kv.1, Val := ascii kv.2 })) cs

/-- A text node. -/
def txt (s : GoString) : Node :=
  .mk NodeType.TextNode s [] []

/-- A response whose body parses to a document with the given body content. -/
def page (cs : List Node) : Response :=
  { doc := .mk NodeType.DocumentNode [] [] [elem "html" [] [elem "body" [] cs]] }

/-- A page with one link in a govspeak container, its text padded with
white space. -/
def francePage : Response :=
  page [elem "div" [("class", "govspeak")]
    [elem "a" [("class", "govuk-link"), ("href", "/fr")] [txt (ascii "  France \n")]]]

/-- A page with a link whose text is the single byte 0xFF, not valid UTF-8. -/
def badBytePage : Response :=
  page [elem "div" [("class", "govspeak")]
    [elem "a" [("class", "govuk-link"), ("href", "/x")] [txt [0xFF]]]]

/-- A page whose labels and targets contain a quote, a backslash, `<`, `>`,
`&`, a tab, U+2028 and the two-byte character U+00E9; the two links are
equal. -/
def trickyPage : Response :=
  page [elem "div" [("class", "govspeak")]
    [elem "a" [("class", "govuk-link"), ("href", "/a?x=1&y=<2>")]
        [txt (ascii "Q\"\\\t" ++ [0xE2, 0x80, 0xA8, 0xC3, 0xA9])],
      elem "a" [("class", "govuk-link"), ("href", "/a?x=1&y=<2>")]
        [txt (ascii "Q\"\\\t" ++ [0xE2, 0x80, 0xA8, 0xC3, 0xA9])]]]

/-- A page with a link but no govspeak container. -/
def plainPage : Response :=
  page [elem "p" [] [elem "a" [("class", "govuk-link"), ("href", "/out")] [txt (ascii "Out")]]]

/-- A page with one link outside any govspeak container, one link inside two
nested govspeak containers, and one link without `href` inside one. -/
def nestedPage : Response :=
  page [elem "a" [("class", "govuk-link"), ("href", "/out")] [txt (ascii "Out")],
    elem "div" [("class", "main govspeak")]
      [elem "div" [("class", "govspeak")]
        [elem "a" [("class", "link govuk-link"), ("href", "/in")] [txt (ascii "In")]],
       elem "a" [("class", "govuk-link")] [txt (ascii "Bare")]]]

/-- A matched element without `href`. -/
def bareElement : HTMLElement :=
  { Name := ascii "a", Text := ascii "Bare",
    attributes := [{ Namespace := [], Key := ascii "class", Val := ascii "govuk-link" }] }

/-- A matched element whose `href` is a relative reference. -/
def linkElement : HTMLElement :=
  { Name := ascii "a", Text := ascii "In",
    attributes := [{ Namespace := [], Key := ascii "class", Val := ascii "govuk-link" },
      { Namespace := [], Key := ascii "href", Val := ascii "../in" }] }

/-! ## Basic facts about the callbacks and `main` -/

theorem visitingLine_eq : joinArgs [ascii "Visiting", targetURL] ++ [0x0A] = visitingLine := by
  decide

theorem finished_space :
    ascii "Finished. Here is your data:" ++ [0x20] = ascii "Finished. Here is your data: " := by
  decide

theorem onHTML_eq (e : HTMLElement) (w : World) :
    onHTML e w =
      { w with registries :=
          append w.registries (Registry.mk e.Text (e.Attr (ascii "href"))) } := rfl

theorem foldl_onHTML (ns : List Node) (rs : List Registry) (out : GoString) :
    ns.foldl (fun w n => onHTML (NewHTMLElementFromSelectionNode n) w)
        { registries := some rs, stdout := out } =
      { registries := some (rs ++ ns.map recordOf), stdout := out } := by
  induction ns generalizing rs with
  | nil => simp
  | cons n ns ih =>
    rw [List.foldl_cons]
    have h : onHTML (NewHTMLElementFromSelectionNode n) { registries := some rs, stdout := out } =
        { registries := some (rs ++ [recordOf n]), stdout := out } := rfl
    rw [h, ih]
    simp

theorem printResult_error (err : GoString) (w : World) :
    printResult (.error err) w = { w with stdout := w.stdout ++ err ++ [0x0A] } := rfl

theorem printResult_ok (data : GoString) (w : World) :
    printResult (.ok data) w =
      { w with stdout :=
          w.stdout ++ ascii "Finished. Here is your data: " ++ data ++ [0x0A] } := by
  simp only [printResult, Println, joinArgs, ← finished_space]
  simp

theorem visit_error (err : GoString) (w : World) :
    collector.Visit targetURL (.error err) w = (onRequest { URL := targetURL } w, some err) := rfl

theorem visit_ok (resp : Response) (rs : List Registry) (out : GoString) :
    collector.Visit targetURL (.ok resp) { registries := some rs, stdout := out } =
      (printResult
        (Marshal (some (rs ++ (Find govukLinkSelector resp.doc).map recordOf)))
        { registries := some (rs ++ (Find govukLinkSelector resp.doc).map recordOf),
          stdout := out ++ visitingLine }, none) := by
  simp only [Collector.Visit, collector, NewCollector, Collector.OnRequest, Collector.OnHTML,
    Collector.OnScraped, Collector.handleOnHTML, List.nil_append, List.foldl_cons,
    List.foldl_nil, onRequest, Println, onScraped]
  rw [foldl_onHTML]
  simp only [List.append_assoc, visitingLine_eq]

theorem main_error (err : GoString) :
    main (.error err) =
      { stdout := visitingLine, stderr := [], exitCode := 0, registries := some [] } := by
  simp only [main, visit_error, onRequest, Println, List.nil_append, visitingLine_eq]

theorem main_ok (resp : Response) :
    main (.ok resp) =
      { stdout := visitingLine ++ ascii "Finished. Here is your data: " ++
          (0x5B :: encodeElems ((Find govukLinkSelector resp.doc).map recordOf) ++ [0x5D]) ++
          [0x0A],
        stderr := [], exitCode := 0,
        registries := some ((Find govukLinkSelector resp.doc).map recordOf) } := by
  simp only [main, visit_ok, Marshal, printResult_ok, List.nil_append]

/-! ## Decoding what the string encoder writes -/


theorem hexVal_hex (n : Nat) (h : n < 16) : hexVal (hex n) = some n := by
  interval_cases n <;> rfl

theorem getu4_byte (b : Nat) (h : b < 0x100) :
    getu4 0x30 0x30 (hex (b / 16)) (hex (b % 16)) = some b := by
  have h1 : hexVal (hex (b / 16)) = some (b / 16) := hexVal_hex _ (by omega)
  have h2 : hexVal (hex (b % 16)) = some (b % 16) := hexVal_hex _ (by omega)
  have h0 : hexVal 0x30 = some 0 := rfl
  simp only [getu4, h0, h1, h2]
  congr 1
  omega



theorem step_quote (s : GoString) : unquoteStep (0x22 :: s) = some (none, s) := by
  simp [unquoteStep]

theorem step_plain (c : Nat) (s : GoString) (h1 : c ≠ 0x22) (h2 : c ≠ 0x5C)
    (h3 : 0x20 ≤ c) : unquoteStep (c :: s) = some (some [c], s) := by
  simp [unquoteStep, h1, h2, Nat.not_lt.mpr h3]

theorem step_esc (e b : Nat) (s : GoString) (he : e ≠ 0x75) (hu : unescape e = some b) :
    unquoteStep (0x5C :: e :: s) = some (some [b], s) := by
  simp [unquoteStep, he, hu]

theorem step_u4 (h1 h2 h3 h4 rr : Nat) (s : GoString)
    (hg : getu4 h1 h2 h3 h4 = some rr) (hs : rr < 0xD800 ∨ 0xDC00 ≤ rr) :
    unquoteStep (0x5C :: 0x75 :: h1 :: h2 :: h3 :: h4 :: s) = some (some (AppendRune rr), s) := by
  have : ¬ (0xD800 ≤ rr ∧ rr < 0xDC00) := by omega
  simp [unquoteStep, hg, this]

theorem unquoteBody_more (fuel : Nat) (s bs rest : GoString)
    (h : unquoteStep s = some (some bs, rest)) :
    unquoteBody (fuel + 1) s = consBytes bs (unquoteBody fuel rest) := by
  simp [unquoteBody, h]

theorem unquoteBody_quote (fuel : Nat) (s : GoString) :
    unquoteBody (fuel + 1) (0x22 :: s) = some ([], s) := by
  simp [unquoteBody, step_quote]

theorem consBytes_some (bs ds rest : GoString) :
    consBytes bs (some (ds, rest)) = some (bs ++ ds, rest) := rfl

theorem escapeByte_length (b : Nat) : 2 ≤ (escapeByte b).length := by
  unfold escapeByte
  split_ifs <;> simp

theorem unquote_escapeByte (b n : Nat) (x : GoString) (hb : b < 0x80) :
    unquoteBody (n + 1) (escapeByte b ++ x) = consBytes [b] (unquoteBody n x) := by
  unfold escapeByte
  split_ifs with h1 h2 h3 h4
  · rcases h1 with h | h <;> subst h <;> exact unquoteBody_more _ _ _ _ (step_esc _ _ _ (by decide) rfl)
  · subst h2; exact unquoteBody_more _ _ _ _ (step_esc _ _ _ (by decide) rfl)
  · subst h3; exact unquoteBody_more _ _ _ _ (step_esc _ _ _ (by decide) rfl)
  · subst h4; exact unquoteBody_more _ _ _ _ (step_esc _ _ _ (by decide) rfl)
  · have hg := getu4_byte b (by omega)
    have ha : AppendRune b = [b] := by simp [AppendRune, hb]
    have := unquoteBody_more n _ _ x (step_u4 _ _ _ _ b x hg (by omega))
    rw [ha] at this
    exact this

theorem unquote_run (bs : GoString) (n : Nat) (x : GoString) (h : ∀ c ∈ bs, 0x80 ≤ c) :
    unquoteBody (n + bs.length) (bs ++ x) = consBytes bs (unquoteBody n x) := by
  induction bs with
  | nil => cases h' : unquoteBody n x <;> simp [consBytes, h']
  | cons c cs ih =>
    have hc : 0x80 ≤ c := h c (by simp)
    have hstep := step_plain c (cs ++ x) (by omega) (by omega) (by omega)
    have := unquoteBody_more (n + cs.length) _ _ _ hstep
    rw [List.length_cons, ← Nat.add_assoc, List.cons_append, this,
      ih (fun d hd => h d (by simp [hd]))]
    cases unquoteBody n x <;> simp [consBytes]

/-- Shape of a successful multi-byte decoding. -/
theorem decode_shape (b : Nat) (t : GoString) (hb : 0x80 ≤ b) :
    DecodeRuneInString (b :: t) = (RuneError, 1) ∨
    (∃ s1 u c, t = s1 :: u ∧ 0x80 ≤ s1 ∧ DecodeRuneInString (b :: t) = (c, 2) ∧ c < 0x800) ∨
    (∃ s1 s2 u c, t = s1 :: s2 :: u ∧ 0x80 ≤ s1 ∧ 0x80 ≤ s2 ∧
      DecodeRuneInString (b :: t) = (c, 3) ∧
      (c = 0x2028 → b = 0xE2 ∧ s1 = 0x80 ∧ s2 = 0xA8) ∧
      (c = 0x2029 → b = 0xE2 ∧ s1 = 0x80 ∧ s2 = 0xA9)) ∨
    (∃ s1 s2 s3 u c, t = s1 :: s2 :: s3 :: u ∧ 0x80 ≤ s1 ∧ 0x80 ≤ s2 ∧ 0x80 ≤ s3 ∧
      DecodeRuneInString (b :: t) = (c, 4) ∧ 0x10000 ≤ c) := by
  have hlo : 0x80 ≤ acceptLo b := by unfold acceptLo; split_ifs <;> omega
  have hlo4 : b = 0xF0 → 0x90 ≤ acceptLo b := by intro h; simp [acceptLo, h]
  have hhi : acceptHi b ≤ 0xBF := by unfold acceptHi; split_ifs <;> omega
  unfold DecodeRuneInString
  have h0 : ¬ b < 0x80 := by omega
  simp only [h0, ↓reduceIte]
  by_cases hx : b < 0xC2 ∨ 0xF4 < b
  · simp [hx]
  simp only [hx, ↓reduceIte]
  cases t with
  | nil => simp
  | cons s1 t1 =>
    simp only
    by_cases hs1 : s1 < acceptLo b ∨ acceptHi b < s1
    · simp [hs1]
    simp only [hs1, ↓reduceIte]
    by_cases h2 : b < 0xE0
    · simp only [h2, ↓reduceIte]
      right; left
      exact ⟨s1, t1, _, rfl, by omega, rfl, by omega⟩
    simp only [h2, ↓reduceIte]
    cases t1 with
    | nil => simp
    | cons s2 t2 =>
      simp only
      by_cases hs2 : s2 < 0x80 ∨ 0xBF < s2
      · simp [hs2]
      simp only [hs2, ↓reduceIte]
      by_cases h3 : b < 0xF0
      · simp only [h3, ↓reduceIte]
        right; right; left
        exact ⟨s1, s2, t2, _, rfl, by omega, by omega, rfl, by omega, by omega⟩
      simp only [h3, ↓reduceIte]
      cases t2 with
      | nil => simp
      | cons s3 t3 =>
        simp only
        by_cases hs3 : s3 < 0x80 ∨ 0xBF < s3
        · simp [hs3]
        simp only [hs3, ↓reduceIte]
        right; right; right
        refine ⟨s1, s2, s3, t3, _, rfl, by omega, by omega, by omega, rfl, ?_⟩
        have : b = 0xF0 ∨ 0xF1 ≤ b := by omega
        omega

theorem step_replacement (x : GoString) :
    unquoteStep (0x5C :: 0x75 :: 0x66 :: 0x66 :: 0x66 :: 0x64 :: x) =
      some (some [0xEF, 0xBF, 0xBD], x) :=
  step_u4 0x66 0x66 0x66 0x64 0xFFFD x rfl (by omega)

theorem step_separator (c : Nat) (x : GoString) (h : c = 0x2028 ∨ c = 0x2029) :
    unquoteStep (0x5C :: 0x75 :: 0x32 :: 0x30 :: 0x32 :: hex (c % 16) :: x) =
      some (some [0xE2, 0x80, 0x80 + c % 64], x) := by
  rcases h with h | h <;> subst h
  · exact step_u4 0x32 0x30 0x32 _ 0x2028 x rfl (by omega)
  · exact step_u4 0x32 0x30 0x32 _ 0x2029 x rfl (by omega)

/-- Decoding what the string encoder wrote gives back the string coerced to
valid UTF-8, whatever follows the closing quote. -/
theorem unquote_stringLoop (fuel : Nat) :
    ∀ (s rest : GoString) (n : Nat), s.length ≤ fuel → (stringLoop fuel s).length < n →
      unquoteBody n (stringLoop fuel s ++ 0x22 :: rest) = some (toValidLoop fuel s, rest) := by
  induction fuel with
  | zero =>
    intro s rest n hs hn
    obtain ⟨m, rfl⟩ : ∃ m, n = m + 1 := ⟨n - 1, by omega⟩
    simp [stringLoop, toValidLoop, unquoteBody_quote]
  | succ fuel ih =>
    intro s rest n hs hn
    cases s with
    | nil =>
      obtain ⟨m, rfl⟩ : ∃ m, n = m + 1 := ⟨n - 1, by omega⟩
      simp [stringLoop, toValidLoop, unquoteBody_quote]
    | cons b t =>
      have ht : t.length ≤ fuel := by simpa using hs
      simp only [stringLoop, toValidLoop] at hn ⊢
      by_cases hb : b < 0x80
      · simp only [hb, ↓reduceIte] at hn ⊢
        by_cases hsafe : htmlSafeSet b = true
        · simp only [hsafe, ↓reduceIte, List.length_cons, List.cons_append] at hn ⊢
          obtain ⟨m, rfl⟩ : ∃ m, n = m + 1 := ⟨n - 1, by omega⟩
          have h22 : b ≠ 0x22 ∧ b ≠ 0x5C ∧ 0x20 ≤ b := by
            simp [htmlSafeSet] at hsafe; omega
          rw [unquoteBody_more m _ _ _ (step_plain b _ h22.1 h22.2.1 h22.2.2),
            ih t rest m ht (by omega)]
          rfl
        · simp only [hsafe, Bool.false_eq_true, ↓reduceIte, List.length_append,
            List.append_assoc] at hn ⊢
          have hl := escapeByte_length b
          obtain ⟨m, rfl⟩ : ∃ m, n = m + 1 := ⟨n - 1, by omega⟩
          rw [unquote_escapeByte b m _ hb, ih t rest m ht (by omega)]
          rfl
      · simp only [hb, ↓reduceIte] at hn ⊢
        rcases decode_shape b t (by omega) with h | ⟨s1, u, c, rfl, h1, hd, hc⟩ |
            ⟨s1, s2, u, c, rfl, h1, h2, hd, hc8, hc9⟩ |
            ⟨s1, s2, s3, u, c, rfl, h1, h2, h3, hd, hc⟩
        · simp only [h, and_self, ↓reduceIte, List.length_append, List.length_cons,
            List.length_nil, List.cons_append, List.nil_append] at hn ⊢
          obtain ⟨m, rfl⟩ : ∃ m, n = m + 1 := ⟨n - 1, by omega⟩
          rw [unquoteBody_more m _ _ _ (step_replacement _), ih t rest m ht (by omega)]
          rfl
        · have hne : ¬ (c = RuneError ∧ 2 = 1) := by omega
          have hne2 : ¬ (c = 0x2028 ∨ c = 0x2029) := by omega
          simp only [hd, hne, hne2, ↓reduceIte, List.take, List.drop, List.length_append,
            List.length_cons, List.length_nil] at hn ⊢
          obtain ⟨m, rfl⟩ : ∃ m, n = m + 2 := ⟨n - 2, by omega⟩
          have hu : u.length ≤ fuel := by simp at ht; omega
          have := unquote_run [b, s1] m (stringLoop fuel u ++ 0x22 :: rest)
            (by intro x hx; simp at hx; omega)
          simp only [List.length_cons, List.length_nil, List.cons_append, List.nil_append,
            List.append_assoc] at this ⊢
          rw [this, ih u rest m hu (by omega)]
          rfl
        · have hne : ¬ (c = RuneError ∧ 3 = 1) := by omega
          have hu : u.length ≤ fuel := by simp at ht; omega
          by_cases hsep : c = 0x2028 ∨ c = 0x2029
          · simp only [hd, hne, hsep, ↓reduceIte, List.take, List.drop, List.length_append,
              List.length_cons, List.length_nil, List.cons_append, List.nil_append] at hn ⊢
            obtain ⟨m, rfl⟩ : ∃ m, n = m + 1 := ⟨n - 1, by omega⟩
            rw [unquoteBody_more m _ _ _ (step_separator c _ hsep), ih u rest m hu (by omega)]
            have : [0xE2, 0x80, 0x80 + c % 64] = [b, s1, s2] := by
              rcases hsep with h | h
              · obtain ⟨rfl, rfl, rfl⟩ := hc8 h; subst h; rfl
              · obtain ⟨rfl, rfl, rfl⟩ := hc9 h; subst h; rfl
            rw [this]
            rfl
          · simp only [hd, hne, hsep, ↓reduceIte, List.take, List.drop, List.length_append,
              List.length_cons, List.length_nil] at hn ⊢
            obtain ⟨m, rfl⟩ : ∃ m, n = m + 3 := ⟨n - 3, by omega⟩
            have := unquote_run [b, s1, s2] m (stringLoop fuel u ++ 0x22 :: rest)
              (by intro x hx; simp at hx; omega)
            simp only [List.length_cons, List.length_nil, List.cons_append, List.nil_append,
              List.append_assoc] at this ⊢
            rw [this, ih u rest m hu (by omega)]
            rfl
        · have hne : ¬ (c = RuneError ∧ 4 = 1) := by omega
          have hne2 : ¬ (c = 0x2028 ∨ c = 0x2029) := by omega
          have hu : u.length ≤ fuel := by simp at ht; omega
          simp only [hd, hne, hne2, ↓reduceIte, List.take, List.drop, List.length_append,
            List.length_cons, List.length_nil] at hn ⊢
          obtain ⟨m, rfl⟩ : ∃ m, n = m + 4 := ⟨n - 4, by omega⟩
          have := unquote_run [b, s1, s2, s3] m (stringLoop fuel u ++ 0x22 :: rest)
            (by intro x hx; simp at hx; omega)
          simp only [List.length_cons, List.length_nil, List.cons_append, List.nil_append,
            List.append_assoc] at this ⊢
          rw [this, ih u rest m hu (by omega)]
          rfl



theorem parseString_encodeString (s rest : GoString) :
    parseString (encodeString s ++ rest) = some (toValidUTF8 s, rest) := by
  simp only [encodeString, parseString, List.cons_append, List.append_assoc, ↓reduceIte]
  exact unquote_stringLoop s.length s rest _ (le_refl _) (by simp)

theorem toValid_country : toValidUTF8 (ascii "Country") = ascii "Country" := by decide

theorem toValid_url : toValidUTF8 (ascii "URL") = ascii "URL" := by decide

theorem parseMembers_last (fuel : Nat) (k v rest : GoString) :
    parseMembers (fuel + 1) (encodeString k ++ (0x3A :: (encodeString v ++ (0x7D :: rest)))) =
      some ([(toValidUTF8 k, toValidUTF8 v)], rest) := by
  simp [parseMembers, parseString_encodeString]

theorem parseMembers_comma (fuel : Nat) (k v x : GoString) :
    parseMembers (fuel + 1) (encodeString k ++ (0x3A :: (encodeString v ++ (0x2C :: x)))) =
      (parseMembers fuel x).map (fun p => ((toValidUTF8 k, toValidUTF8 v) :: p.1, p.2)) := by
  simp [parseMembers, parseString_encodeString]

theorem encodeString_cons (s : GoString) :
    encodeString s = 0x22 :: (stringLoop s.length s ++ [0x22]) := rfl

theorem parseObject_quote (x : GoString) :
    parseObject (0x7B :: 0x22 :: x) = parseMembers (x.length + 1) (0x22 :: x) := by
  simp [parseObject]

theorem parseObject_encodeRegistry (r : Registry) (rest : GoString) :
    parseObject (encodeRegistry r ++ rest) = some (membersOf r, rest) := by
  have hbody : encodeRegistry r ++ rest =
      0x7B :: (encodeString (ascii "Country") ++ (0x3A :: (encodeString r.Country ++
        (0x2C :: (encodeString (ascii "URL") ++ (0x3A :: (encodeString r.URL ++
          (0x7D :: rest)))))))) := by
    simp [encodeRegistry, Registry.fields, encodeFields]
  rw [hbody]
  generalize hy : (0x2C :: (encodeString (ascii "URL") ++ (0x3A :: (encodeString r.URL ++
          (0x7D :: rest))))) = y
  have hx : encodeString (ascii "Country") ++ (0x3A :: (encodeString r.Country ++ y)) =
      0x22 :: (stringLoop (ascii "Country").length (ascii "Country") ++
        (0x22 :: 0x3A :: (encodeString r.Country ++ y))) := by
    simp [encodeString_cons]
  have hylen : 1 ≤ y.length := by rw [← hy]; simp
  rw [hx, parseObject_quote, ← hx]
  obtain ⟨m, hm⟩ : ∃ m, (stringLoop (ascii "Country").length (ascii "Country") ++
        (0x22 :: 0x3A :: (encodeString r.Country ++ y))).length + 1 = m + 2 :=
    ⟨(stringLoop (ascii "Country").length (ascii "Country") ++
        (0x22 :: 0x3A :: (encodeString r.Country ++ y))).length - 1,
      by simp only [List.length_append, List.length_cons]; omega⟩
  rw [hm, ← hy, parseMembers_comma (m + 1), parseMembers_last, toValid_country, toValid_url]
  rfl

theorem encodeRegistry_length (r : Registry) : 1 ≤ (encodeRegistry r).length := by
  simp [encodeRegistry]

theorem encodeElems_length (rs : List Registry) : rs.length ≤ (encodeElems rs).length := by
  induction rs with
  | nil => simp
  | cons r rs ih =>
    cases rs with
    | nil => simpa [encodeElems] using encodeRegistry_length r
    | cons q qs =>
      have := encodeRegistry_length r
      simp only [encodeElems, List.length_append, List.length_cons] at ih ⊢
      omega

theorem parseElems_encodeElems (rs : List Registry) :
    ∀ (fuel : Nat) (rest : GoString), rs ≠ [] → rs.length ≤ fuel →
      parseElems fuel (encodeElems rs ++ 0x5D :: rest) = some (rs.map membersOf, rest) := by
  induction rs with
  | nil => intro fuel rest h; exact absurd rfl h
  | cons r rs ih =>
    intro fuel rest _ hf
    obtain ⟨m, rfl⟩ : ∃ m, fuel = m + 1 := ⟨fuel - 1, by simp at hf; omega⟩
    cases rs with
    | nil =>
      simp [encodeElems, parseElems, parseObject_encodeRegistry]
    | cons q qs =>
      have hq := ih m rest (by simp) (by simpa using hf)
      simp only [encodeElems, List.append_assoc, List.cons_append] at hq ⊢
      simp only [parseElems, parseObject_encodeRegistry, ↓reduceIte, hq]
      rfl

theorem encodeElems_head (r : Registry) (rs : List Registry) :
    ∃ x, encodeElems (r :: rs) = 0x7B :: x := by
  cases rs with
  | nil => exact ⟨_, rfl⟩
  | cons q qs => exact ⟨_, rfl⟩

/-- Decoding the array written for a list of records yields, in order, the
two members `Country` and `URL` of each record. -/
theorem decodeObjects_encodeElems (rs : List Registry) :
    decodeObjects (0x5B :: encodeElems rs ++ [0x5D]) = some (rs.map membersOf) := by
  cases rs with
  | nil => simp [encodeElems, decodeObjects]
  | cons r rs =>
    obtain ⟨x, hx⟩ := encodeElems_head r rs
    have hlen := encodeElems_length (r :: rs)
    have hp := parseElems_encodeElems (r :: rs) (encodeElems (r :: rs) ++ [0x5D]).length []
      (by simp) (by simp only [List.length_append]; omega)
    simp only [decodeObjects, List.cons_append, ↓reduceIte]
    rw [hx] at hp ⊢
    simp only [List.cons_append] at hp ⊢
    have hne : (0x7B : Nat) ≠ 0x5D := by decide
    simp only [hne, ↓reduceIte, hp]

theorem registryOfMembers_membersOf (r : Registry) :
    registryOfMembers (membersOf r) =
      { Country := toValidUTF8 r.Country, URL := toValidUTF8 r.URL } := by
  have h1 : ascii "URL" ≠ ascii "Country" := by decide
  simp [registryOfMembers, membersOf, h1]

theorem Unmarshal_encodeElems (rs : List Registry) :
    Unmarshal (0x5B :: encodeElems rs ++ [0x5D]) = some (some (rs.map Registry.toValid)) := by
  have hne : (0x5B :: encodeElems rs ++ [0x5D] : GoString) ≠ ascii "null" := by
    intro h
    have := congrArg List.head? h
    simp [ascii] at this
  simp only [Unmarshal, hne, ↓reduceIte, decodeObjects_encodeElems, Option.map_some',
    List.map_map]
  have hf : registryOfMembers ∘ membersOf = Registry.toValid := by
    funext r
    exact registryOfMembers_membersOf r
  rw [hf]


/-! ## Valid UTF-8 and line structure of the output -/


theorem decode_size_pos (b : Nat) (t : GoString) : 1 ≤ (DecodeRuneInString (b :: t)).2 := by
  by_cases hb : b < 0x80
  · simp [DecodeRuneInString, hb]
  · rcases decode_shape b t (by omega) with h | ⟨_, _, _, _, _, h, _⟩ |
      ⟨_, _, _, _, _, _, _, h, _⟩ | ⟨_, _, _, _, _, _, _, _, _, h, _⟩ <;> simp [h]

theorem decode_size_le (b : Nat) (t : GoString) :
    (DecodeRuneInString (b :: t)).2 ≤ (b :: t).length := by
  by_cases hb : b < 0x80
  · simp [DecodeRuneInString, hb]
  · rcases decode_shape b t (by omega) with h | ⟨_, _, _, rfl, _, h, _⟩ |
      ⟨_, _, _, _, rfl, _, _, h, _⟩ | ⟨_, _, _, _, _, rfl, _, _, _, h, _⟩ <;> simp [h]

theorem take_drop_size (b : Nat) (t : GoString) (k : Nat) (hk : 1 ≤ k) :
    (b :: t).take k ++ t.drop (k - 1) = b :: t := by
  obtain ⟨m, rfl⟩ : ∃ m, k = m + 1 := ⟨k - 1, by omega⟩
  simp

theorem toValidLoop_of_valid (fuel : Nat) :
    ∀ s : GoString, s.length ≤ fuel → validLoop fuel s = true → toValidLoop fuel s = s := by
  induction fuel with
  | zero =>
    intro s hs _
    have : s = [] := List.eq_nil_of_length_eq_zero (by omega)
    subst this; rfl
  | succ fuel ih =>
    intro s hs hv
    cases s with
    | nil => rfl
    | cons b t =>
      have ht : t.length ≤ fuel := by simpa using hs
      simp only [validLoop, toValidLoop] at hv ⊢
      by_cases hb : b < 0x80
      · simp only [hb, ↓reduceIte] at hv ⊢
        rw [ih t ht hv]
      · simp only [hb, ↓reduceIte] at hv ⊢
        by_cases he : (DecodeRuneInString (b :: t)).1 = RuneError ∧
            (DecodeRuneInString (b :: t)).2 = 1
        · simp [he] at hv
        · simp only [he, ↓reduceIte] at hv ⊢
          rw [ih _ (by simp only [List.length_drop]; omega) hv]
          exact take_drop_size b t _ (decode_size_pos b t)

theorem toValidUTF8_of_valid (s : GoString) (h : ValidString s = true) : toValidUTF8 s = s :=
  toValidLoop_of_valid s.length s (le_refl _) h

theorem escapeByte_no_newline (b : Nat) : ∀ c ∈ escapeByte b, c ≠ 0x0A := by
  have hh : ∀ n, hex n ≠ 0x0A := by
    intro n; unfold hex; split_ifs <;> omega
  unfold escapeByte
  split_ifs with h1 h2 h3 h4
  · intro c hc
    simp at hc
    omega
  all_goals
    intro c hc
    simp at hc
    have := hh (b / 16)
    have := hh (b % 16)
    omega

theorem stringLoop_no_newline (fuel : Nat) :
    ∀ s : GoString, ∀ c ∈ stringLoop fuel s, c ≠ 0x0A := by
  induction fuel with
  | zero => intro s c hc; simp [stringLoop] at hc
  | succ fuel ih =>
    intro s c hc
    cases s with
    | nil => simp [stringLoop] at hc
    | cons b t =>
      simp only [stringLoop] at hc
      by_cases hb : b < 0x80
      · simp only [hb, ↓reduceIte] at hc
        by_cases hsafe : htmlSafeSet b = true
        · simp only [hsafe, ↓reduceIte, List.mem_cons] at hc
          rcases hc with rfl | hc
          · simp [htmlSafeSet] at hsafe; omega
          · exact ih _ _ hc
        · simp only [hsafe, Bool.false_eq_true, ↓reduceIte, List.mem_append] at hc
          rcases hc with hc | hc
          · exact escapeByte_no_newline b c hc
          · exact ih _ _ hc
      · simp only [hb, ↓reduceIte] at hc
        have hhex : ∀ n, hex n ≠ 0x0A := by
          intro n; unfold hex; split_ifs <;> omega
        split_ifs at hc with h1 h2
        · simp only [List.cons_append, List.nil_append, List.mem_cons] at hc
          rcases hc with rfl | rfl | rfl | rfl | rfl | rfl | hc
          all_goals first | omega | exact ih _ _ hc
        · simp only [List.cons_append, List.nil_append, List.mem_cons] at hc
          have := hhex ((DecodeRuneInString (b :: t)).1 % 16)
          rcases hc with rfl | rfl | rfl | rfl | rfl | rfl | hc
          all_goals first | omega | exact ih _ _ hc
        · rw [List.mem_append] at hc
          rcases hc with hc | hc
          · rcases decode_shape b t (by omega) with h | ⟨s1, u, c2, rfl, _, h, _⟩ |
              ⟨s1, s2, u, c2, rfl, _, _, h, _⟩ | ⟨s1, s2, s3, u, c2, rfl, _, _, _, h, _⟩
            · simp [h] at h1
            all_goals
              simp only [h, List.take, List.mem_cons, List.not_mem_nil, or_false] at hc
              omega
          · exact ih _ _ hc

theorem encodeString_no_newline (s : GoString) : ∀ c ∈ encodeString s, c ≠ 0x0A := by
  intro c hc
  simp only [encodeString, List.mem_cons, List.mem_append, List.not_mem_nil, or_false] at hc
  rcases hc with (rfl | hc) | rfl
  · omega
  · exact stringLoop_no_newline _ _ _ hc
  · omega

theorem encodeRegistry_no_newline (r : Registry) : ∀ c ∈ encodeRegistry r, c ≠ 0x0A := by
  intro c hc
  simp only [encodeRegistry, Registry.fields, encodeFields, List.mem_cons, List.mem_append,
    List.not_mem_nil, or_false] at hc
  have := encodeString_no_newline
  rcases hc with (rfl | (hc | rfl | hc) | rfl | hc | rfl | hc) | rfl
  all_goals first | omega | exact this _ _ hc

theorem encodeElems_no_newline (rs : List Registry) : ∀ c ∈ encodeElems rs, c ≠ 0x0A := by
  induction rs with
  | nil => intro c hc; simp [encodeElems] at hc
  | cons r rs ih =>
    cases rs with
    | nil => exact encodeRegistry_no_newline r
    | cons q qs =>
      intro c hc
      simp only [encodeElems, List.mem_append, List.mem_cons] at hc ih
      rcases hc with hc | rfl | hc
      · exact encodeRegistry_no_newline r c hc
      · omega
      · exact ih c hc


/-! ## Selector matching as a filter over the document -/

mutual
theorem matchAll_eq_filter (s : Selector) :
    ∀ (anc : List Node) (n : Node),
      matchAll s anc n =
        ((nodesWithAncestors anc n).filter (fun p => s p.1 p.2)).map Prod.snd
  | anc, .mk t d as cs => by
    rw [matchAll, nodesWithAncestors, matchAllForest_eq_filter s _ cs]
    by_cases h : s anc (.mk t d as cs) = true
    · simp [List.filter_cons, h]
    · simp [List.filter_cons, h]
theorem matchAllForest_eq_filter (s : Selector) :
    ∀ (anc : List Node) (ns : List Node),
      matchAllForest s anc ns =
        ((forestWithAncestors anc ns).filter (fun p => s p.1 p.2)).map Prod.snd
  | _, [] => by simp [matchAllForest, forestWithAncestors]
  | anc, n :: ns => by
    rw [matchAllForest, forestWithAncestors, matchAll_eq_filter s anc n,
      matchAllForest_eq_filter s anc ns]
    simp
end

theorem anyAncestor_class (cls : GoString) (anc : List Node) :
    anyAncestor (classSelector cls) anc = anc.any (carriesClass cls) := by
  induction anc with
  | nil => rfl
  | cons p ps ih => simp [anyAncestor, ih, classSelector, carriesClass]

theorem govukLinkSelector_eq (anc : List Node) (n : Node) :
    govukLinkSelector anc n = qualifies (anc, n) := by
  simp [govukLinkSelector, descendantSelector, qualifies, anyAncestor_class, classSelector,
    carriesClass]

theorem qualifies_element (p : List Node × Node) (h : qualifies p = true) :
    p.2.Typ = NodeType.ElementNode := by
  simp [qualifies, carriesClass] at h
  exact h.1.1

theorem nodesWithAncestors_leaf (anc : List Node) (c : Node) (h : c.children = []) :
    nodesWithAncestors anc c = [(anc, c)] := by
  cases c with
  | mk t d as cs =>
    simp only [Node.children] at h
    subst h
    simp [nodesWithAncestors, forestWithAncestors]

theorem findChildren_eq_filter (root : Node) (cs : List Node)
    (hleaf : ∀ c ∈ cs, c.Typ ≠ NodeType.ElementNode → c.children.length = 0) :
    findChildren govukLinkSelector root cs =
      ((forestWithAncestors [root] cs).filter qualifies).map Prod.snd := by
  induction cs with
  | nil => simp [findChildren, forestWithAncestors]
  | cons c cs ih =>
    have ih' := ih (fun x hx => hleaf x (by simp [hx]))
    rw [findChildren, forestWithAncestors, ih', List.filter_append, List.map_append]
    congr 1
    by_cases hc : c.Typ = NodeType.ElementNode
    · simp only [hc, ↓reduceIte, matchAll_eq_filter]
      congr 2
      funext p
      exact govukLinkSelector_eq p.1 p.2
    · have hnot : qualifies ([root], c) = false := by
        cases hq : qualifies ([root], c) with
        | false => rfl
        | true => exact absurd (qualifies_element _ hq) hc
      simp [hc, nodesWithAncestors_leaf [root] c
        (List.length_eq_zero.mp (hleaf c (by simp) hc)), hnot]

theorem Find_eq_filter (root : Node)
    (hleaf : ∀ c ∈ root.children, c.Typ ≠ NodeType.ElementNode → c.children.length = 0) :
    Find govukLinkSelector root = ((descendants root).filter qualifies).map Prod.snd :=
  findChildren_eq_filter root root.children hleaf


/-! ## The loops run to the end of their input -/


theorem stringLoop_fuel (fuel : Nat) :
    ∀ (s : GoString) (k : Nat), s.length ≤ fuel →
      stringLoop (fuel + k) s = stringLoop fuel s := by
  induction fuel with
  | zero =>
    intro s k hs
    have : s = [] := List.eq_nil_of_length_eq_zero (by omega)
    subst this
    cases k <;> rfl
  | succ fuel ih =>
    intro s k hs
    rw [show fuel + 1 + k = (fuel + k) + 1 by omega]
    cases s with
    | nil => rfl
    | cons b t =>
      have ht : t.length ≤ fuel := by simpa using hs
      have hd : ∀ j, (t.drop j).length ≤ fuel := by
        intro j; simp only [List.length_drop]; omega
      simp only [stringLoop, ih t k ht, ih _ k (hd _)]

theorem toValidLoop_fuel (fuel : Nat) :
    ∀ (s : GoString) (k : Nat), s.length ≤ fuel →
      toValidLoop (fuel + k) s = toValidLoop fuel s := by
  induction fuel with
  | zero =>
    intro s k hs
    have : s = [] := List.eq_nil_of_length_eq_zero (by omega)
    subst this
    cases k <;> rfl
  | succ fuel ih =>
    intro s k hs
    rw [show fuel + 1 + k = (fuel + k) + 1 by omega]
    cases s with
    | nil => rfl
    | cons b t =>
      have ht : t.length ≤ fuel := by simpa using hs
      have hd : ∀ j, (t.drop j).length ≤ fuel := by
        intro j; simp only [List.length_drop]; omega
      simp only [toValidLoop, ih t k ht, ih _ k (hd _)]


set_option maxRecDepth 100000


/-! ## The claims -/

theorem append_elems {α : Type} (sl : Slice α) (x : α) :
    (append sl x).elems = sl.elems ++ [x] := by
  cases sl <;> rfl

theorem attr_absent (e : HTMLElement) (k : GoString)
    (h : ∀ a ∈ e.attributes, a.Key ≠ k) : e.Attr k = [] := by
  have : e.attributes.find? (fun a => decide (a.Key = k)) = none := by
    rw [List.find?_eq_none]
    intro a ha
    simpa using h a ha
  simp [HTMLElement.Attr, this]

theorem attr_first (e : HTMLElement) (k : GoString) (pre post : List Attribute)
    (a : Attribute) (he : e.attributes = pre ++ a :: post)
    (hpre : ∀ x ∈ pre, x.Key ≠ k) (ha : a.Key = k) : e.Attr k = a.Val := by
  have hfind : ∀ pre : List Attribute, (∀ x ∈ pre, x.Key ≠ k) →
      (pre ++ a :: post).find? (fun a => decide (a.Key = k)) = some a := by
    intro pre
    induction pre with
    | nil => intro _; simp [ha]
    | cons x xs ih =>
      intro hp
      have hx : x.Key ≠ k := hp x (by simp)
      simp only [List.cons_append, List.find?_cons, hx, decide_False]
      exact ih (fun y hy => hp y (by simp [hy]))
  simp [HTMLElement.Attr, he, hfind pre hpre]

/-- C1: after a successful fetch the records held at completion, which are
the ones serialized, are the matches of the selector mapped one by one, in
document order, to (text, href): same length, k-th record built from the
k-th match, nothing dropped, merged, reordered or deduplicated. -/
theorem records_follow_matches (resp : Response) :
    (main (.ok resp)).registries =
        some ((Find govukLinkSelector resp.doc).map recordOf) ∧
      (main (.ok resp)).registries.elems.length =
        (Find govukLinkSelector resp.doc).length ∧
      (∀ k : Nat, (main (.ok resp)).registries.elems[k]? =
        (Find govukLinkSelector resp.doc)[k]?.map
          (fun m => { Country := nodeText m,
                      URL := (NewHTMLElementFromSelectionNode m).Attr (ascii "href") })) ∧
      (∃ data, Marshal (main (.ok resp)).registries = .ok data ∧
        (main (.ok resp)).stdout =
          visitingLine ++ ascii "Finished. Here is your data: " ++ data ++ [0x0A]) := by
  rw [main_ok]
  refine ⟨rfl, by simp [Slice.elems], ?_, ⟨_, rfl, rfl⟩⟩
  intro k
  simp only [Slice.elems, List.getElem?_map]
  rfl

/-- C2 as stated fails: a link whose text is the byte 0xFF is recorded with
that text, the JSON written for it holds the escape of U+FFFD in its place,
and reading the JSON back gives the three bytes of U+FFFD, not 0xFF. -/
theorem roundtrip_fails_on_invalid_utf8 :
    (main (.ok badBytePage)).registries = some [{ Country := [0xFF], URL := ascii "/x" }] ∧
      Marshal (some [{ Country := [0xFF], URL := ascii "/x" }]) =
        .ok (ascii "[\x7b\"Country\":\"\\ufffd\",\"URL\":\"/x\"\x7d]") ∧
      Unmarshal (ascii "[\x7b\"Country\":\"\\ufffd\",\"URL\":\"/x\"\x7d]") =
        some (some [{ Country := [0xEF, 0xBF, 0xBD], URL := ascii "/x" }]) ∧
      Unmarshal (ascii "[\x7b\"Country\":\"\\ufffd\",\"URL\":\"/x\"\x7d]") ≠
        some ((main (.ok badBytePage)).registries) := by
  refine ⟨by decide, by rfl, by decide, by decide⟩

/-- C2 amended: when every extracted label and target is valid UTF-8, reading
back the JSON array printed at completion yields exactly the extracted
(Country, URL) pairs, in the same order. -/
theorem roundtrip_valid_utf8 (resp : Response)
    (hv : ∀ m ∈ Find govukLinkSelector resp.doc,
      ValidString (recordOf m).Country = true ∧ ValidString (recordOf m).URL = true) :
    ∃ data, Marshal (main (.ok resp)).registries = .ok data ∧
      (main (.ok resp)).stdout =
        visitingLine ++ ascii "Finished. Here is your data: " ++ data ++ [0x0A] ∧
      Unmarshal data = some (some ((Find govukLinkSelector resp.doc).map recordOf)) := by
  rw [main_ok]
  refine ⟨_, rfl, rfl, ?_⟩
  rw [Unmarshal_encodeElems, List.map_map]
  congr 2
  apply List.map_congr_left
  intro m hm
  obtain ⟨h1, h2⟩ := hv m hm
  simp only [Function.comp, Registry.toValid, toValidUTF8_of_valid _ h1,
    toValidUTF8_of_valid _ h2]

/-- C2 amended, at a page whose strings hold a quote, a backslash, `<`, `>`,
`&`, a tab, U+2028 and U+00E9, twice the same link. -/
theorem roundtrip_valid_utf8_witness :
    (∀ m ∈ Find govukLinkSelector trickyPage.doc,
      ValidString (recordOf m).Country = true ∧ ValidString (recordOf m).URL = true) ∧
    ∃ data, Marshal (main (.ok trickyPage)).registries = .ok data ∧
      (main (.ok trickyPage)).stdout =
        visitingLine ++ ascii "Finished. Here is your data: " ++ data ++ [0x0A] ∧
      Unmarshal data = some (some ((Find govukLinkSelector trickyPage.doc).map recordOf)) :=
  ⟨by decide, roundtrip_valid_utf8 trickyPage (by decide)⟩

/-- C3: a fetched page without any match leaves `registries` the empty
non-nil slice, which is serialized as `[]` and not `null`, and the success
line `Finished. Here is your data: []` is printed. -/
theorem no_match_prints_empty_array (resp : Response)
    (h : Find govukLinkSelector resp.doc = []) :
    (main (.ok resp)).registries = some [] ∧
      Marshal (main (.ok resp)).registries = .ok (ascii "[]") ∧
      Marshal (main (.ok resp)).registries ≠ .ok (ascii "null") ∧
      (main (.ok resp)).stdout =
        visitingLine ++ ascii "Finished. Here is your data: []\n" := by
  rw [main_ok, h]
  refine ⟨rfl, rfl, ?_, by decide⟩
  intro hn
  injection hn with hn
  exact absurd hn (by decide)

/-- C3 at a page that has a link but no govspeak container. -/
theorem no_match_prints_empty_array_witness :
    Find govukLinkSelector plainPage.doc = [] ∧
      (main (.ok plainPage)).stdout =
        visitingLine ++ ascii "Finished. Here is your data: []\n" :=
  ⟨rfl, (no_match_prints_empty_array plainPage rfl).2.2.2⟩

/-- C4: the element callback always appends exactly one record and writes
nothing.  Without an `href` attribute the record's URL is the empty string;
with one, URL is the value of the (first) `href` attribute, unchanged. -/
theorem href_becomes_url (e : HTMLElement) (w : World) :
    (onHTML e w).stdout = w.stdout ∧
      ((∀ a ∈ e.attributes, a.Key ≠ ascii "href") →
        (onHTML e w).registries.elems =
          w.registries.elems ++ [{ Country := e.Text, URL := [] }]) ∧
      (∀ (pre post : List Attribute) (a : Attribute),
        e.attributes = pre ++ a :: post → (∀ x ∈ pre, x.Key ≠ ascii "href") →
        a.Key = ascii "href" →
        (onHTML e w).registries.elems =
          w.registries.elems ++ [{ Country := e.Text, URL := a.Val }]) := by
  refine ⟨rfl, ?_, ?_⟩
  · intro h
    rw [onHTML_eq, append_elems, attr_absent e _ h]
  · intro pre post a he hpre ha
    rw [onHTML_eq, append_elems, attr_first e _ pre post a he hpre ha]

/-- C4 at an element without `href` and at one with the relative reference
`../in`, each appended to a slice that already holds a record. -/
theorem href_becomes_url_witness :
    (onHTML bareElement { registries := some [⟨ascii "In", ascii "/in"⟩], stdout := [] }
        ).registries.elems =
        [⟨ascii "In", ascii "/in"⟩, ⟨ascii "Bare", []⟩] ∧
      (onHTML linkElement { registries := some [⟨ascii "In", ascii "/in"⟩], stdout := [] }
        ).registries.elems =
        [⟨ascii "In", ascii "/in"⟩, ⟨ascii "In", ascii "../in"⟩] :=
  ⟨(href_becomes_url bareElement _).2.1 (by decide),
   (href_becomes_url linkElement _).2.2
     [{ Namespace := [], Key := ascii "class", Val := ascii "govuk-link" }] []
     { Namespace := [], Key := ascii "href", Val := ascii "../in" } rfl (by decide) rfl⟩

/-- C5 as stated fails: for a link whose text is "  France \n" the record's
Country is that text with its white space, not the trimmed "France", and the
white space is printed. -/
theorem country_keeps_white_space :
    (main (.ok francePage)).registries =
        some [{ Country := ascii "  France \n", URL := ascii "/fr" }] ∧
      TrimSpace (ascii "  France \n") = ascii "France" ∧
      (main (.ok francePage)).registries ≠
        some [{ Country := TrimSpace (ascii "  France \n"), URL := ascii "/fr" }] ∧
      (main (.ok francePage)).stdout = visitingLine ++
        ascii "Finished. Here is your data: [\x7b\"Country\":\"  France \\n\",\"URL\":\"/fr\"\x7d]\n" := by
  refine ⟨by decide, by decide, by decide, ?_⟩
  rw [main_ok]
  decide

/-- C5 amended: the Country field of the appended record is the element's
text exactly as the library hands it over (the concatenated text nodes of the
element), white space included. -/
theorem country_is_text_verbatim :
    (∀ (e : HTMLElement) (w : World), ∃ r : Registry,
        (onHTML e w).registries.elems = w.registries.elems ++ [r] ∧ r.Country = e.Text) ∧
      (∀ m : Node, (recordOf m).Country = nodeText m) ∧
      (∀ resp : Response, ((main (.ok resp)).registries.elems.map Registry.Country) =
        (Find govukLinkSelector resp.doc).map nodeText) := by
  refine ⟨fun e w => ⟨Registry.mk e.Text (e.Attr (ascii "href")), ?_, rfl⟩,
    fun _ => rfl, ?_⟩
  · rw [onHTML_eq, append_elems]
  · intro resp
    rw [main_ok]
    simp [Slice.elems, recordOf, NewHTMLElementFromSelectionNode]



/-- C6 as stated fails: for the page whose link text is the byte 0xFF the
record's label is that byte, but the `Country` member of the object printed
for it reads back as the three bytes of U+FFFD. -/
theorem data_line_loses_invalid_byte :
    (main (.ok badBytePage)).registries = some [{ Country := [0xFF], URL := ascii "/x" }] ∧
      ∃ data : GoString,
        (main (.ok badBytePage)).stdout =
          visitingLine ++ (ascii "Finished. Here is your data: " ++ data) ++ [0x0A] ∧
        decodeObjects data =
          some [[(ascii "Country", [0xEF, 0xBF, 0xBD]), (ascii "URL", ascii "/x")]] ∧
        decodeObjects data ≠
          some ((main (.ok badBytePage)).registries.elems.map
            (fun r => [(ascii "Country", r.Country), (ascii "URL", r.URL)])) := by
  refine ⟨by decide, ?_⟩
  rw [main_ok]
  refine ⟨0x5B :: encodeElems ((Find govukLinkSelector badBytePage.doc).map recordOf) ++
    [0x5D], by simp, by decide, by decide⟩

/-- C6 amended: after a successful fetch standard output ends with one line
that is the text `Finished. Here is your data: ` followed by a JSON array;
the line before it ends with a newline and the line itself holds none.  Read
as JSON, the array has one object per record, in order, each with exactly the
two string members `Country` and `URL`, in that order; the value of a member
is the record's label or target whenever that string is valid UTF-8. -/
theorem data_line_shape (resp : Response) :
    ∃ data : GoString,
      (main (.ok resp)).stdout =
        visitingLine ++ (ascii "Finished. Here is your data: " ++ data) ++ [0x0A] ∧
      visitingLine.getLast? = some 0x0A ∧
      0x0A ∉ ascii "Finished. Here is your data: " ++ data ∧
      ∃ objs : List (List (GoString × GoString)),
        decodeObjects data = some objs ∧
        List.Forall₂
          (fun (r : Registry) (o : List (GoString × GoString)) =>
            ∃ c u : GoString, o = [(ascii "Country", c), (ascii "URL", u)] ∧
              (ValidString r.Country = true → c = r.Country) ∧
              (ValidString r.URL = true → u = r.URL))
          (main (.ok resp)).registries.elems objs := by
  rw [main_ok]
  refine ⟨0x5B :: encodeElems ((Find govukLinkSelector resp.doc).map recordOf) ++ [0x5D],
    by simp, by decide, ?_, _, decodeObjects_encodeElems _, ?_⟩
  · intro hc
    rw [List.mem_append] at hc
    rcases hc with hc | hc
    · revert hc
      decide
    · simp only [List.cons_append, List.mem_cons, List.mem_append, List.not_mem_nil,
        or_false] at hc
      rcases hc with hc | hc | hc
      · omega
      · exact encodeElems_no_newline _ _ hc rfl
      · omega
  · rw [List.forall₂_map_right_iff]
    show List.Forall₂ _ ((Find govukLinkSelector resp.doc).map recordOf)
      ((Find govukLinkSelector resp.doc).map recordOf)
    rw [List.forall₂_same]
    intro r _
    exact ⟨_, _, rfl, toValidUTF8_of_valid _, toValidUTF8_of_valid _⟩

/-- C6 amended, at the page with the single link "  France \n" to `/fr`: the
printed array reads back as one object whose members `Country` and `URL`
hold that label and that target. -/
theorem data_line_shape_witness :
    ∃ data : GoString,
      (main (.ok francePage)).stdout =
        visitingLine ++ (ascii "Finished. Here is your data: " ++ data) ++ [0x0A] ∧
      decodeObjects data =
        some [[(ascii "Country", ascii "  France \n"), (ascii "URL", ascii "/fr")]] := by
  obtain ⟨data, h1, _, _, objs, h4, hF⟩ := data_line_shape francePage
  refine ⟨data, h1, ?_⟩
  have he : (main (.ok francePage)).registries.elems =
      [{ Country := ascii "  France \n", URL := ascii "/fr" }] := by decide
  rw [he, List.forall₂_cons_left_iff] at hF
  obtain ⟨o, os, ⟨c, u, ho, hc, hu⟩, hos, rfl⟩ := hF
  rw [List.forall₂_nil_left_iff] at hos
  rw [h4, ho, hos, hc (by decide), hu (by decide)]

/-- C7: on a parse tree whose non-element nodes directly under the root are
leaves, the matches of the selector are exactly the nodes below the root that
carry class `govuk-link` and have a proper ancestor carrying class
`govspeak`, each once and in document order, and the records are built from
them one by one. -/
theorem links_under_govspeak (resp : Response)
    (hleaf : ∀ c ∈ resp.doc.children,
      c.Typ ≠ NodeType.ElementNode → c.children.length = 0) :
    Find govukLinkSelector resp.doc =
        ((descendants resp.doc).filter qualifies).map Prod.snd ∧
      (main (.ok resp)).registries =
        some (((descendants resp.doc).filter qualifies).map (fun p => recordOf p.2)) ∧
      (main (.ok resp)).registries.elems.length =
        (descendants resp.doc).countP qualifies ∧
      (∀ p ∈ descendants resp.doc,
        (p ∈ (descendants resp.doc).filter qualifies ↔
          (carriesClass (ascii "govuk-link") p.2 = true ∧
            ∃ a ∈ p.1, carriesClass (ascii "govspeak") a = true))) := by
  have hF := Find_eq_filter resp.doc hleaf
  refine ⟨hF, ?_, ?_, ?_⟩
  · rw [main_ok, hF, List.map_map]
    rfl
  · rw [main_ok, hF]
    simp [Slice.elems, List.countP_eq_length_filter]
  · intro p hp
    simp [List.mem_filter, hp, qualifies]

/-- C7 at a page with a link outside any govspeak container (left out), a
link inside two nested govspeak containers (recorded once) and a link without
`href` inside one. -/
theorem links_under_govspeak_witness :
    (∀ c ∈ nestedPage.doc.children,
      c.Typ ≠ NodeType.ElementNode → c.children.length = 0) ∧
    (main (.ok nestedPage)).registries =
      some (((descendants nestedPage.doc).filter qualifies).map (fun p => recordOf p.2)) ∧
    (main (.ok nestedPage)).registries =
      some [⟨ascii "In", ascii "/in"⟩, ⟨ascii "Bare", []⟩] :=
  ⟨by decide, (links_under_govspeak nestedPage (by decide)).2.1, by decide⟩

/-- C8: when the fetch fails, `Visit` returns the error right after the
request callback: the completion callback does not run, `registries` stays
empty, and standard output is the `Visiting` line alone, with no
`Finished. Here is your data:` text and no JSON array in it. -/
theorem failed_fetch_prints_only_visiting (err : GoString) :
    (∀ w : World, collector.Visit targetURL (.error err) w =
        (onRequest { URL := targetURL } w, some err)) ∧
      (main (.error err)).stdout = visitingLine ∧
      ¬ (ascii "Finished. Here is your data:" <:+: (main (.error err)).stdout) ∧
      0x5B ∉ (main (.error err)).stdout ∧
      (main (.error err)).registries = some [] := by
  rw [main_error]
  refine ⟨fun w => rfl, rfl, by decide, by decide, rfl⟩

/-- C9 as stated fails: when the fetch fails with "connection refused",
`Visit` returns that error but the run does not report it: the text is on
neither output stream and the exit status is 0. -/
theorem fetch_error_not_reported :
    (collector.Visit targetURL (.error (ascii "connection refused"))
        { registries := some [], stdout := [] }).2 = some (ascii "connection refused") ∧
      ¬ reportsFailure (ascii "connection refused")
        (main (.error (ascii "connection refused"))) := by
  refine ⟨rfl, ?_⟩
  unfold reportsFailure
  decide

/-- C9 amended: when the fetch fails, the error returned by the single
`Visit` call is dropped: whatever the error, the run writes the `Visiting`
line and nothing else on standard output, nothing on standard error, and
ends with exit status 0. -/
theorem fetch_error_is_dropped (err : GoString) :
    (collector.Visit targetURL (.error err) { registries := some [], stdout := [] }).2 =
        some err ∧
      main (.error err) =
        { stdout := visitingLine, stderr := [], exitCode := 0, registries := some [] } ∧
      (∀ other : GoString, main (.error other) = main (.error err)) := by
  refine ⟨rfl, main_error err, fun other => ?_⟩
  rw [main_error, main_error]

/-- C10: the completion callback makes one `Println` call chosen by the
result of `json.Marshal`: on an error the text written is the error's text
and a newline, and nothing else; otherwise it is the data line and a
newline.  The callback changes nothing else, and every run ends with exit
status 0 and an empty standard error. -/
theorem completion_writes_one_line :
    (∀ (err : GoString) (w : World),
        printResult (.error err) w = { w with stdout := w.stdout ++ err ++ [0x0A] }) ∧
      (∀ (data : GoString) (w : World),
        printResult (.ok data) w =
          { w with stdout :=
              w.stdout ++ ascii "Finished. Here is your data: " ++ data ++ [0x0A] }) ∧
      (∀ (r : Response) (w : World), onScraped r w = printResult (Marshal w.registries) w) ∧
      (∀ env : Except GoString Response,
        (main env).exitCode = 0 ∧ (main env).stderr = []) :=
  ⟨printResult_error, printResult_ok, fun _ _ => rfl, fun _ => ⟨rfl, rfl⟩⟩


end Scrape
